import Mathlib

/-!
Shallow embedding of `src/constraint.rs` from the `type-checking` repository:
the constraint-generation phase of a Hindley-Milner-style type inference
engine. The Rust source defines a `Constraint` pair of types, an entry point
`collect_constraints` that seeds a `HashMap<String, Type>` with five built-in
operators, and the recursive traversal `collect_constraints_with_bindings`.

The Rust `Type` enum (from `annotator.rs`, referenced by the source and its
tests as `Type::Variable(id)`, `Type::Integer`, `Type::Boolean`,
`Type::Function { parameter_type, return_type }`) is embedded as `Ty`
(`Type` is reserved in Lean). The Rust `TypedTerm` struct (a `ty : Type`
field plus a `kind : TypedTermKind` tagged union) is embedded as a single
inductive whose every constructor carries the node's own type first,
followed by the fields of the corresponding `TypedTermKind` variant; the
projection `TypedTerm.ty` recovers the `ty` field.

The environment `HashMap<String, Type>` is embedded as an association list
`Bindings` with `get` (first matching key, as `HashMap::get`) and `insert`
(replace any existing entry for the key, then add, as `HashMap::insert`);
`clone` of the map is the identity on this persistent representation.
-/

set_option autoImplicit false

namespace TypeChecking

/-- The Rust `Type` enum: type variables carry an opaque integer id;
`Integer` and `Boolean` are ground; `Function` owns a parameter and a
return type. -/
inductive Ty where
  | variable (id : Nat)
  | integer
  | boolean
  | function (parameter_type : Ty) (return_type : Ty)
  deriving DecidableEq, Repr

/-- The Rust `struct Constraint { type1: Type, type2: Type }`. -/
structure Constraint where
  type1 : Ty
  type2 : Ty
  deriving DecidableEq, Repr

/-- The Rust `TypedTerm` (a `ty` field plus a `TypedTermKind`), flattened:
each constructor's first argument is the node's own `ty`, the remaining
arguments are the fields of the `TypedTermKind` variant of the same name. -/
inductive TypedTerm where
  | integer (ty : Ty) (value : Int)
  | identifier (ty : Ty) (name : String)
  | functionApplication (ty : Ty) (function : TypedTerm) (argument : TypedTerm)
  | functionDefinition (ty : Ty) (parameter : TypedTerm) (body : TypedTerm)
  | ifExpression (ty : Ty) (condition : TypedTerm) (true_branch : TypedTerm)
      (false_branch : TypedTerm)
  | letExpression (ty : Ty) (declaration_name : TypedTerm)
      (declaration_value : TypedTerm) (expression : TypedTerm)
  deriving DecidableEq, Repr

/-- The `ty` field of a `TypedTerm` node. -/
def TypedTerm.ty : TypedTerm → Ty
  | .integer ty _ => ty
  | .identifier ty _ => ty
  | .functionApplication ty _ _ => ty
  | .functionDefinition ty _ _ => ty
  | .ifExpression ty _ _ _ => ty
  | .letExpression ty _ _ _ => ty

/-- Number of nodes of a `TypedTerm` tree (used to bound the number of
emitted constraints). -/
def TypedTerm.size : TypedTerm → Nat
  | .integer _ _ => 1
  | .identifier _ _ => 1
  | .functionApplication _ function argument => 1 + function.size + argument.size
  | .functionDefinition _ parameter body => 1 + parameter.size + body.size
  | .ifExpression _ condition true_branch false_branch =>
      1 + condition.size + true_branch.size + false_branch.size
  | .letExpression _ declaration_name declaration_value expression =>
      1 + declaration_name.size + declaration_value.size + expression.size

/-- The environment `HashMap<String, Type>`, embedded as an association
list observed only through `get` and `insert`. -/
abbrev Bindings : Type := List (String × Ty)

/-- `HashMap::get`: the value bound to `name`, if any. -/
def Bindings.get : Bindings → String → Option Ty
  | [], _ => none
  | (k, v) :: rest, name => if k = name then some v else Bindings.get rest name

/-- Remove every entry for `name` (auxiliary to `insert`). -/
def Bindings.eraseKey : Bindings → String → Bindings
  | [], _ => []
  | (k, v) :: rest, name =>
      if k = name then Bindings.eraseKey rest name
      else (k, v) :: Bindings.eraseKey rest name

/-- `HashMap::insert`: bind `name` to `ty`, replacing any previous binding
for `name` (the key set afterwards is the old key set together with
`name`). -/
def Bindings.insert (bindings : Bindings) (name : String) (ty : Ty) : Bindings :=
  (name, ty) :: bindings.eraseKey name

/-- `collect_constraints_with_bindings` from `src/constraint.rs`: the
six-way recursive traversal emitting type-equality constraints.
`Vec::extend` on the vector of self-constraints is list append. -/
def collect_constraints_with_bindings : TypedTerm → Bindings → List Constraint
  | .functionApplication ty function argument, bindings =>
      ⟨function.ty, .function argument.ty ty⟩ ::
        (collect_constraints_with_bindings function bindings ++
          collect_constraints_with_bindings argument bindings)
  | .functionDefinition ty parameter body, bindings =>
      ⟨ty, .function parameter.ty body.ty⟩ ::
        collect_constraints_with_bindings body bindings
  | .identifier ty name, bindings =>
      match bindings.get name with
      | some t => [⟨ty, t⟩]
      | none => []
  | .ifExpression ty condition true_branch false_branch, bindings =>
      ⟨ty, true_branch.ty⟩ :: ⟨ty, false_branch.ty⟩ ::
        ⟨condition.ty, .boolean⟩ :: ⟨true_branch.ty, false_branch.ty⟩ ::
        (collect_constraints_with_bindings condition bindings ++
          (collect_constraints_with_bindings true_branch bindings ++
            collect_constraints_with_bindings false_branch bindings))
  | .integer ty _, _ => [⟨ty, .integer⟩]
  | .letExpression ty declaration_name declaration_value expression, bindings =>
      let extended_bindings : Bindings :=
        match declaration_name with
        | .identifier nty name => bindings.insert name nty
        | _ => bindings
      ⟨ty, expression.ty⟩ :: ⟨declaration_name.ty, declaration_value.ty⟩ ::
        (collect_constraints_with_bindings declaration_value bindings ++
          collect_constraints_with_bindings expression extended_bindings)

/-- The initial environment built at the top of `collect_constraints`
(lines 18-53 of the source): the five built-in operators, inserted in the
source's order, each bound to `Function(Integer, Integer)`. -/
def initial_bindings : Bindings :=
  let bindings : Bindings := []
  let bindings := bindings.insert "+" (.function .integer .integer)
  let bindings := bindings.insert "-" (.function .integer .integer)
  let bindings := bindings.insert "*" (.function .integer .integer)
  let bindings := bindings.insert "/" (.function .integer .integer)
  let bindings := bindings.insert "=" (.function .integer .integer)
  bindings

/-- `collect_constraints` from `src/constraint.rs`: the public entry point;
builds the initial environment and delegates to the traversal. -/
def collect_constraints (term : TypedTerm) : List Constraint :=
  collect_constraints_with_bindings term initial_bindings

/-! ## Helper lemmas about the environment -/

/-- Erasing a key and then looking up a different key is the same as
looking it up in the original environment. -/
lemma Bindings.get_eraseKey_ne (env : Bindings) (name k : String) (h : name ≠ k) :
    Bindings.get (env.eraseKey name) k = env.get k := by
  induction env with
  | nil => rfl
  | cons hd tl ih =>
      obtain ⟨a, b⟩ := hd
      by_cases ha : a = name
      · have hne : a ≠ k := by rw [ha]; exact h
        simp [Bindings.eraseKey, Bindings.get, ha, hne, ih, h]
      · by_cases hak : a = k <;>
          simp [Bindings.eraseKey, Bindings.get, ha, hak, ih, h, Ne.symm h]

/-- Lookup after `insert`: the inserted key maps to the new value, every
other key maps as before. -/
lemma Bindings.get_insert (env : Bindings) (name : String) (ty : Ty) (k : String) :
    Bindings.get (env.insert name ty) k = if name = k then some ty else env.get k := by
  by_cases h : name = k
  · simp [Bindings.insert, Bindings.get, h]
  · simp [Bindings.insert, Bindings.get, h, Bindings.get_eraseKey_ne env name k h]

/-- After `insert`, no entry for the inserted key other than the new one
remains in the environment. -/
lemma Bindings.filter_insert_self (env : Bindings) (name : String) (ty : Ty) :
    List.filter (fun p => decide (p.1 = name)) (env.insert name ty) = [(name, ty)] := by
  have hrest : ∀ l : Bindings,
      List.filter (fun p => decide (p.1 = name)) (Bindings.eraseKey l name) = [] := by
    intro l
    induction l with
    | nil => rfl
    | cons hd tl ih =>
        obtain ⟨a, b⟩ := hd
        by_cases h : a = name <;> simp [Bindings.eraseKey, List.filter_cons, h, ih]
  simp [Bindings.insert, List.filter_cons, hrest env]

/-- The collector depends on the environment only through lookup: two
environments with the same `get` function yield the same constraints. -/
lemma collect_constraints_with_bindings_ext (t : TypedTerm) :
    ∀ b1 b2 : Bindings, (∀ k, b1.get k = b2.get k) →
      collect_constraints_with_bindings t b1 = collect_constraints_with_bindings t b2 := by
  induction t with
  | integer ty v =>
      intro b1 b2 h
      rfl
  | identifier ty name =>
      intro b1 b2 h
      simp only [collect_constraints_with_bindings, h name]
  | functionApplication ty f a ihf iha =>
      intro b1 b2 h
      simp only [collect_constraints_with_bindings, ihf b1 b2 h, iha b1 b2 h]
  | functionDefinition ty p bd ihp ihb =>
      intro b1 b2 h
      simp only [collect_constraints_with_bindings, ihb b1 b2 h]
  | ifExpression ty c tb fb ihc ihtb ihfb =>
      intro b1 b2 h
      simp only [collect_constraints_with_bindings, ihc b1 b2 h, ihtb b1 b2 h, ihfb b1 b2 h]
  | letExpression ty n v e ihn ihv ihe =>
      intro b1 b2 h
      cases n with
      | identifier nty nm =>
          have hins : ∀ k, (b1.insert nm nty).get k = (b2.insert nm nty).get k := by
            intro k
            rw [Bindings.get_insert, Bindings.get_insert, h k]
          simp only [collect_constraints_with_bindings, ihv b1 b2 h,
            ihe (b1.insert nm nty) (b2.insert nm nty) hins]
      | integer a b =>
          simp only [collect_constraints_with_bindings, ihv b1 b2 h, ihe b1 b2 h]
      | functionApplication a b c =>
          simp only [collect_constraints_with_bindings, ihv b1 b2 h, ihe b1 b2 h]
      | functionDefinition a b c =>
          simp only [collect_constraints_with_bindings, ihv b1 b2 h, ihe b1 b2 h]
      | ifExpression a b c d =>
          simp only [collect_constraints_with_bindings, ihv b1 b2 h, ihe b1 b2 h]
      | letExpression a b c d =>
          simp only [collect_constraints_with_bindings, ihv b1 b2 h, ihe b1 b2 h]

/-- The number of emitted constraints is bounded by four times the number
of nodes of the term. -/
lemma collect_constraints_with_bindings_length_le (t : TypedTerm) :
    ∀ env : Bindings, (collect_constraints_with_bindings t env).length ≤ 4 * t.size := by
  induction t with
  | integer ty v =>
      intro env
      simp [collect_constraints_with_bindings, TypedTerm.size]
  | identifier ty name =>
      intro env
      simp only [collect_constraints_with_bindings, TypedTerm.size]
      cases env.get name <;> simp
  | functionApplication ty f a ihf iha =>
      intro env
      have h1 := ihf env
      have h2 := iha env
      simp only [collect_constraints_with_bindings, TypedTerm.size, List.length_cons,
        List.length_append] at h1 h2 ⊢
      omega
  | functionDefinition ty p bd ihp ihb =>
      intro env
      have h1 := ihb env
      simp only [collect_constraints_with_bindings, TypedTerm.size, List.length_cons] at h1 ⊢
      omega
  | ifExpression ty c tb fb ihc ihtb ihfb =>
      intro env
      have h1 := ihc env
      have h2 := ihtb env
      have h3 := ihfb env
      simp only [collect_constraints_with_bindings, TypedTerm.size, List.length_cons,
        List.length_append] at h1 h2 h3 ⊢
      omega
  | letExpression ty n v e ihn ihv ihe =>
      intro env
      have h1 := ihv env
      cases n with
      | identifier nty nm =>
          have h2 := ihe (env.insert nm nty)
          simp only [collect_constraints_with_bindings, TypedTerm.size, List.length_cons,
            List.length_append] at h1 h2 ⊢
          omega
      | integer a b =>
          have h2 := ihe env
          simp only [collect_constraints_with_bindings, TypedTerm.size, List.length_cons,
            List.length_append] at h1 h2 ⊢
          omega
      | functionApplication a b c =>
          have h2 := ihe env
          simp only [collect_constraints_with_bindings, TypedTerm.size, List.length_cons,
            List.length_append] at h1 h2 ⊢
          omega
      | functionDefinition a b c =>
          have h2 := ihe env
          simp only [collect_constraints_with_bindings, TypedTerm.size, List.length_cons,
            List.length_append] at h1 h2 ⊢
          omega
      | ifExpression a b c d =>
          have h2 := ihe env
          simp only [collect_constraints_with_bindings, TypedTerm.size, List.length_cons,
            List.length_append] at h1 h2 ⊢
          omega
      | letExpression a b c d =>
          have h2 := ihe env
          simp only [collect_constraints_with_bindings, TypedTerm.size, List.length_cons,
            List.length_append] at h1 h2 ⊢
          omega

/-! ## Claim theorems -/

/-- C1: for every `LetExpression` node with declaration name `N`,
declaration value `V` and expression `E`, the collector emits exactly the
two self-constraints `T = type(E)` then `type(N) = type(V)`, then the
constraints of `V` collected under the original (unextended) environment,
then the constraints of `E` collected under the environment extended by
the single binding `{name(N) -> type(N)}` when `N` is an `Identifier`, and
under the unchanged environment otherwise; the declared name is never
visible while collecting `V`. -/
theorem let_expression_constraints (ty : Ty) (N V E : TypedTerm) (env : Bindings) :
    collect_constraints_with_bindings (.letExpression ty N V E) env =
      ⟨ty, E.ty⟩ :: ⟨N.ty, V.ty⟩ ::
        (collect_constraints_with_bindings V env ++
          collect_constraints_with_bindings E
            (match N with
             | .identifier nty name => env.insert name nty
             | _ => env)) := by
  cases N <;> rfl

/-- C2: `collect_constraints` delegates to the environment-threaded
traversal with an initial environment binding exactly the five built-in
operator names `+`, `-`, `*`, `/`, `=`, each to `Function(Integer,
Integer)` (in particular `=` is seeded with `Function(Integer, Integer)`),
and binding no other name. -/
theorem collect_constraints_initial_environment (term : TypedTerm) (name : String) :
    collect_constraints term = collect_constraints_with_bindings term initial_bindings ∧
    initial_bindings.get name =
      (if name = "+" ∨ name = "-" ∨ name = "*" ∨ name = "/" ∨ name = "=" then
        some (.function .integer .integer)
      else none) := by
  refine ⟨rfl, ?_⟩
  by_cases h1 : name = "+"
  · subst h1
    decide
  by_cases h2 : name = "-"
  · subst h2
    decide
  by_cases h3 : name = "*"
  · subst h3
    decide
  by_cases h4 : name = "/"
  · subst h4
    decide
  by_cases h5 : name = "="
  · subst h5
    decide
  have g1 : ("+" : String) ≠ name := fun hc => h1 hc.symm
  have g2 : ("-" : String) ≠ name := fun hc => h2 hc.symm
  have g3 : ("*" : String) ≠ name := fun hc => h3 hc.symm
  have g4 : ("/" : String) ≠ name := fun hc => h4 hc.symm
  have g5 : ("=" : String) ≠ name := fun hc => h5 hc.symm
  rw [show initial_bindings =
      [("=", Ty.function .integer .integer), ("/", Ty.function .integer .integer),
        ("*", Ty.function .integer .integer), ("-", Ty.function .integer .integer),
        ("+", Ty.function .integer .integer)] from by decide]
  simp [Bindings.get, g1, g2, g3, g4, g5, h1, h2, h3, h4, h5]

/-- C3: for an `Identifier` node with type `T` and name `name`, if `name`
is bound in the environment to `B` the collector returns exactly
`[T = B]`, and if `name` is unbound it returns the empty sequence; neither
case is an error. -/
theorem identifier_constraints (ty : Ty) (name : String) (env : Bindings) :
    (∀ B : Ty, env.get name = some B →
      collect_constraints_with_bindings (.identifier ty name) env = [⟨ty, B⟩]) ∧
    (env.get name = none →
      collect_constraints_with_bindings (.identifier ty name) env = []) := by
  constructor
  · intro B h
    simp [collect_constraints_with_bindings, h]
  · intro h
    simp [collect_constraints_with_bindings, h]

/-- Witness for C3: a bound identifier yields its single lookup constraint
and an unbound identifier yields the empty sequence, at concrete inputs. -/
theorem identifier_constraints_witness :
    collect_constraints_with_bindings (.identifier (.variable 0) "x")
        [("x", Ty.integer)] = [⟨.variable 0, .integer⟩] ∧
    collect_constraints_with_bindings (.identifier (.variable 0) "y")
        [("x", Ty.integer)] = [] :=
  ⟨(identifier_constraints (.variable 0) "x" [("x", Ty.integer)]).1 Ty.integer (by decide),
   (identifier_constraints (.variable 0) "y" [("x", Ty.integer)]).2 (by decide)⟩

/-- C4: a `FunctionDefinition` node with type `T`, parameter `P` and body
`Bd` emits exactly the one self-constraint `T = Function(type(P),
type(Bd))` and recurses only into the body, under the unmodified
environment (the parameter's name is never added to the environment). -/
theorem function_definition_constraints (ty : Ty) (P Bd : TypedTerm) (env : Bindings) :
    collect_constraints_with_bindings (.functionDefinition ty P Bd) env =
      ⟨ty, .function P.ty Bd.ty⟩ :: collect_constraints_with_bindings Bd env := rfl

/-- C5: a `FunctionApplication` node with type `T`, function `F` and
argument `A` emits exactly the one self-constraint `type(F) =
Function(type(A), T)`, followed by the constraints of `F` and then of `A`,
both under the same environment as the application node. -/
theorem function_application_constraints (ty : Ty) (F A : TypedTerm) (env : Bindings) :
    collect_constraints_with_bindings (.functionApplication ty F A) env =
      ⟨F.ty, .function A.ty ty⟩ ::
        (collect_constraints_with_bindings F env ++
          collect_constraints_with_bindings A env) := rfl

/-- C6: an `IfExpression` node with type `T`, condition `C`, true branch
`Tr` and false branch `Fa` emits exactly the four self-constraints
`T = type(Tr)`, `T = type(Fa)`, `type(C) = Boolean`,
`type(Tr) = type(Fa)` in that order, followed by the constraints of `C`,
`Tr` and `Fa` in that order under the same environment. -/
theorem if_expression_constraints (ty : Ty) (C Tr Fa : TypedTerm) (env : Bindings) :
    collect_constraints_with_bindings (.ifExpression ty C Tr Fa) env =
      ⟨ty, Tr.ty⟩ :: ⟨ty, Fa.ty⟩ :: ⟨C.ty, .boolean⟩ :: ⟨Tr.ty, Fa.ty⟩ ::
        (collect_constraints_with_bindings C env ++
          (collect_constraints_with_bindings Tr env ++
            collect_constraints_with_bindings Fa env)) := rfl

/-- C7: the collector is total: for every term built from the six node
kinds and every environment it terminates (it is a total Lean function)
and returns a finite sequence whose length is bounded by four times the
number of nodes; an `Integer` literal in particular always yields exactly
the one constraint `T = Integer`. -/
theorem collector_total (t : TypedTerm) (env : Bindings) :
    (collect_constraints_with_bindings t env).length ≤ 4 * t.size ∧
    (∀ (ty : Ty) (v : Int) (env2 : Bindings),
      collect_constraints_with_bindings (.integer ty v) env2 = [⟨ty, .integer⟩]) :=
  ⟨collect_constraints_with_bindings_length_le t env, fun _ _ _ => rfl⟩

/-- C8: the collector is deterministic: its output depends only on the
term and on the lookup function of the environment (two environment
representations with identical lookups yield identical constraint
sequences, so no hash-map iteration order can matter), and every top-level
call uses the fresh `initial_bindings` environment, so one call cannot
influence another. -/
theorem collector_deterministic (t : TypedTerm) (b1 b2 : Bindings)
    (h : ∀ k, b1.get k = b2.get k) :
    collect_constraints_with_bindings t b1 = collect_constraints_with_bindings t b2 ∧
    collect_constraints t = collect_constraints_with_bindings t initial_bindings :=
  ⟨collect_constraints_with_bindings_ext t b1 b2 h, rfl⟩

/-- Witness for C8: two differently-represented environments with the same
lookup function produce the same output at a concrete term. -/
theorem collector_deterministic_witness :
    collect_constraints_with_bindings (.identifier (.variable 0) "a")
        [("a", Ty.integer)] =
      collect_constraints_with_bindings (.identifier (.variable 0) "a")
        [("a", Ty.integer), ("a", Ty.boolean)] ∧
    collect_constraints (.identifier (.variable 0) "a") =
      collect_constraints_with_bindings (.identifier (.variable 0) "a")
        initial_bindings :=
  collector_deterministic (.identifier (.variable 0) "a") [("a", Ty.integer)]
    [("a", Ty.integer), ("a", Ty.boolean)]
    (by intro k; by_cases hk : "a" = k <;> simp [Bindings.get, hk])

/-- C9: when a `LetExpression`'s declaration name is an `Identifier` whose
name is already bound in the current environment, the environment used for
the trailing expression maps that name to the declaration name's type,
replacing (shadowing) the previous binding rather than coexisting with
it. -/
theorem let_shadowing (ty nty B : Ty) (name : String) (V E : TypedTerm) (env : Bindings)
    (_h : env.get name = some B) :
    Bindings.get (env.insert name nty) name = some nty ∧
    List.filter (fun p => decide (p.1 = name)) (env.insert name nty) = [(name, nty)] ∧
    collect_constraints_with_bindings
        (.letExpression ty (.identifier nty name) V E) env =
      ⟨ty, E.ty⟩ :: ⟨nty, V.ty⟩ ::
        (collect_constraints_with_bindings V env ++
          collect_constraints_with_bindings E (env.insert name nty)) := by
  refine ⟨?_, Bindings.filter_insert_self env name nty, rfl⟩
  rw [Bindings.get_insert]
  simp

/-- Witness for C9: shadowing the built-in `+` (bound in
`initial_bindings`) by a let declaration, at concrete inputs. -/
theorem let_shadowing_witness :
    Bindings.get (initial_bindings.insert "+" (.variable 2)) "+" =
      some (.variable 2) ∧
    List.filter (fun p => decide (p.1 = "+"))
        (initial_bindings.insert "+" (.variable 2)) = [("+", Ty.variable 2)] ∧
    collect_constraints_with_bindings
        (.letExpression (.variable 1) (.identifier (.variable 2) "+")
          (.integer (.variable 3) 1) (.identifier (.variable 4) "+"))
        initial_bindings =
      ⟨.variable 1, .variable 4⟩ :: ⟨.variable 2, .variable 3⟩ ::
        (collect_constraints_with_bindings (.integer (.variable 3) 1) initial_bindings ++
          collect_constraints_with_bindings (.identifier (.variable 4) "+")
            (initial_bindings.insert "+" (.variable 2))) :=
  let_shadowing (.variable 1) (.variable 2) (.function .integer .integer) "+"
    (.integer (.variable 3) 1) (.identifier (.variable 4) "+") initial_bindings
    (by decide)

/-- C10: for a `LetExpression` whose declaration name is not an
`Identifier`, the collector still emits both self-constraints and still
recurses into both the declaration value and the trailing expression, the
latter under the unextended environment; only the environment extension is
suppressed. -/
theorem malformed_let_constraints (ty : Ty) (N V E : TypedTerm) (env : Bindings)
    (h : ∀ (nty : Ty) (name : String), N ≠ .identifier nty name) :
    collect_constraints_with_bindings (.letExpression ty N V E) env =
      ⟨ty, E.ty⟩ :: ⟨N.ty, V.ty⟩ ::
        (collect_constraints_with_bindings V env ++
          collect_constraints_with_bindings E env) := by
  cases N with
  | identifier nty name => exact absurd rfl (h nty name)
  | integer a b => rfl
  | functionApplication a b c => rfl
  | functionDefinition a b c => rfl
  | ifExpression a b c d => rfl
  | letExpression a b c d => rfl

/-- Witness for C10: a let expression whose declaration target is an
integer literal still produces both self-constraints and both recursive
traversals. -/
theorem malformed_let_constraints_witness :
    collect_constraints_with_bindings
        (.letExpression (.variable 0) (.integer (.variable 5) 7)
          (.integer (.variable 6) 1) (.integer (.variable 7) 2)) [] =
      ⟨.variable 0, .variable 7⟩ :: ⟨.variable 5, .variable 6⟩ ::
        (collect_constraints_with_bindings (.integer (.variable 6) 1) [] ++
          collect_constraints_with_bindings (.integer (.variable 7) 2) []) :=
  malformed_let_constraints (.variable 0) (.integer (.variable 5) 7)
    (.integer (.variable 6) 1) (.integer (.variable 7) 2) []
    (fun _ _ hc => by cases hc)

end TypeChecking
